import Mathlib

/-!
# Verification of the `eazy_static` procedural macro

A shallow embedding of `src/lib.rs` of the `eazy-static` crate: a
procedural macro that parses a block of `static ref NAME : TYPE = EXPR;`
declarations and emits, per declaration, a zero-sized marker symbol whose
`Deref` implementation lazily initialises a heap-allocated value exactly
once (guarded by `std::sync::Once`), plus a single `pub fn init_all()`
that dereferences every marker in declaration order.

The embedding works at the granularity of the `syn` API calls the source
makes: each `input.parse::<X>()` for a library type (`Attribute`,
`Visibility`, `Ident`, `Type`, `Expr`, punctuation and keyword tokens)
consumes one atomic token of the modelled stream, succeeding or failing
with the source location (span) of the offending token, exactly as the
`?`-propagation in `impl Parse for EazyStatics` does.  Generated output
is modelled as a list of structured items mirroring each `quote!` /
`quote_spanned!` block.  The run-time behaviour of the generated
`deref` body (`Once::call_once` + raw-pointer slot) is modelled as a
state machine in which a `call_once`-guarded section is a single atomic
step, which is the guarantee `std::sync::Once` provides to its callers.
-/

/-- Source location, as carried by `proc_macro2::Span`.  Modelled as an
abstract position. -/
abbrev Span := Nat

/-- Model of `syn::Visibility` as the parser uses it: either an explicit `pub`-style
qualifier or the inherited (absent) visibility.  `syn`'s `Visibility`
parse never fails: absence yields `Visibility::Inherited`. -/
inductive Visibility where
  | inherited
  | pub
deriving DecidableEq, Repr

/-- Model of `syn::Expr`, restricted to the structure the macro inspects: the only
pattern the generator matches on is `Expr::Tuple` with an empty element
list (the literal `()` expression).  `paren` models `Expr::Paren`
(an expression wrapped in redundant parentheses, e.g. `(())`), `block`
models a block expression with a tail expression, and `lit` / `path`
stand for all remaining expression forms. -/
inductive Expr where
  | tuple (elems : List Expr)
  | paren (inner : Expr)
  | block (tail : Expr)
  | lit (n : Nat)
  | path (s : String)

/-- A parsed `syn::Type` together with its span (`ty.span()`), which the
generator uses to anchor `quote_spanned!` assertions. -/
structure Ty where
  id : Nat
  span : Span
deriving DecidableEq, Repr

/-- A parsed expression together with its span (`init.span()`). -/
structure SpannedExpr where
  e : Expr
  span : Span

/-- One parsed declaration: the `EazyStatic` struct of the source. -/
structure EazyStatic where
  visibility : Visibility
  name : String
  ty : Ty
  init : SpannedExpr

/-- The whole parsed block: the `EazyStatics` struct of the source. -/
structure EazyStatics where
  statics : List EazyStatic

/-- Model of `syn::Error` as the claims need it: a diagnostic carrying the span of
the offending token (for an unexpected token) — at end of input, `syn`
reports at the stream's end span, modelled by the `eof` parameter
threaded through the parser. -/
structure ParseError where
  span : Span
deriving DecidableEq, Repr

/-- The token alphabet at the granularity of the `syn` parse calls made by
`impl Parse for EazyStatics`: one token per library-level parse. -/
inductive Tok where
  | attr
  | visPub
  | kwStatic
  | kwRef
  | ident (s : String)
  | colon
  | tyTok (id : Nat)
  | eqTok
  | exprTok (e : Expr)
  | semi

/-- A token with its source span. -/
structure STok where
  tok : Tok
  span : Span

/-- Step `Attribute::parse_outer(input)?` with the result discarded: consumes
the leading run of outer attributes. -/
def dropAttrs : List STok → List STok
  | ⟨.attr, _⟩ :: rest => dropAttrs rest
  | toks => toks

/-- Step `input.parse::<Visibility>()`: consumes a `pub`-style qualifier when
present, otherwise yields `Visibility::Inherited` without consuming. -/
def parseVisibility : List STok → Visibility × List STok
  | ⟨.visPub, _⟩ :: rest => (.pub, rest)
  | toks => (.inherited, toks)

/-- Step `input.parse::<Token![static]>()?`. -/
def expectStatic (eof : Span) : List STok → Except ParseError (List STok)
  | [] => .error ⟨eof⟩
  | ⟨.kwStatic, _⟩ :: rest => .ok rest
  | ⟨_, sp⟩ :: _ => .error ⟨sp⟩

/-- Step `input.parse::<Token![ref]>()?`. -/
def expectRef (eof : Span) : List STok → Except ParseError (List STok)
  | [] => .error ⟨eof⟩
  | ⟨.kwRef, _⟩ :: rest => .ok rest
  | ⟨_, sp⟩ :: _ => .error ⟨sp⟩

/-- Step `input.parse::<Token![:]>()?`. -/
def expectColon (eof : Span) : List STok → Except ParseError (List STok)
  | [] => .error ⟨eof⟩
  | ⟨.colon, _⟩ :: rest => .ok rest
  | ⟨_, sp⟩ :: _ => .error ⟨sp⟩

/-- Step `input.parse::<Token![=]>()?`. -/
def expectEq (eof : Span) : List STok → Except ParseError (List STok)
  | [] => .error ⟨eof⟩
  | ⟨.eqTok, _⟩ :: rest => .ok rest
  | ⟨_, sp⟩ :: _ => .error ⟨sp⟩

/-- Step `input.parse::<Token![;]>()?`. -/
def expectSemi (eof : Span) : List STok → Except ParseError (List STok)
  | [] => .error ⟨eof⟩
  | ⟨.semi, _⟩ :: rest => .ok rest
  | ⟨_, sp⟩ :: _ => .error ⟨sp⟩

/-- Step `let name: Ident = input.parse()?`. -/
def parseIdent (eof : Span) : List STok → Except ParseError (String × List STok)
  | [] => .error ⟨eof⟩
  | ⟨.ident s, _⟩ :: rest => .ok (s, rest)
  | ⟨_, sp⟩ :: _ => .error ⟨sp⟩

/-- Step `let ty: Type = input.parse()?`; the produced `Ty` keeps the token's
span, as `syn` types do. -/
def parseType (eof : Span) : List STok → Except ParseError (Ty × List STok)
  | [] => .error ⟨eof⟩
  | ⟨.tyTok id, sp⟩ :: rest => .ok (⟨id, sp⟩, rest)
  | ⟨_, sp⟩ :: _ => .error ⟨sp⟩

/-- Step `let init: Expr = input.parse()?`; the produced expression keeps the
token's span. -/
def parseExpr (eof : Span) : List STok → Except ParseError (SpannedExpr × List STok)
  | [] => .error ⟨eof⟩
  | ⟨.exprTok e, sp⟩ :: rest => .ok (⟨e, sp⟩, rest)
  | ⟨_, sp⟩ :: _ => .error ⟨sp⟩

/-- One iteration of the `while !input.is_empty()` loop of
`impl Parse for EazyStatics`: parse a single declaration
`attribute* visibility static ref IDENT : TYPE = EXPR ;`. -/
def parseOne (eof : Span) (toks : List STok) :
    Except ParseError (EazyStatic × List STok) :=
  match expectStatic eof (parseVisibility (dropAttrs toks)).2 with
  | .error e => .error e
  | .ok toks3 =>
    match expectRef eof toks3 with
    | .error e => .error e
    | .ok toks4 =>
      match parseIdent eof toks4 with
      | .error e => .error e
      | .ok (name, toks5) =>
        match expectColon eof toks5 with
        | .error e => .error e
        | .ok toks6 =>
          match parseType eof toks6 with
          | .error e => .error e
          | .ok (ty, toks7) =>
            match expectEq eof toks7 with
            | .error e => .error e
            | .ok toks8 =>
              match parseExpr eof toks8 with
              | .error e => .error e
              | .ok (init, toks9) =>
                match expectSemi eof toks9 with
                | .error e => .error e
                | .ok toks10 =>
                  .ok (⟨(parseVisibility (dropAttrs toks)).1, name, ty, init⟩,
                    toks10)

theorem dropAttrs_length_le (toks : List STok) :
    (dropAttrs toks).length ≤ toks.length := by
  induction toks with
  | nil => simp [dropAttrs]
  | cons t rest ih =>
    match t with
    | ⟨.attr, sp⟩ => simpa [dropAttrs] using Nat.le_succ_of_le ih
    | ⟨.visPub, sp⟩ | ⟨.kwStatic, sp⟩ | ⟨.kwRef, sp⟩ | ⟨.ident s, sp⟩
    | ⟨.colon, sp⟩ | ⟨.tyTok i, sp⟩ | ⟨.eqTok, sp⟩ | ⟨.exprTok e, sp⟩
    | ⟨.semi, sp⟩ => simp [dropAttrs]

theorem parseVisibility_length_le (toks : List STok) :
    (parseVisibility toks).2.length ≤ toks.length := by
  match toks with
  | [] => simp [parseVisibility]
  | ⟨.visPub, sp⟩ :: rest => simp [parseVisibility]
  | ⟨.attr, sp⟩ :: rest | ⟨.kwStatic, sp⟩ :: rest | ⟨.kwRef, sp⟩ :: rest
  | ⟨.ident s, sp⟩ :: rest | ⟨.colon, sp⟩ :: rest | ⟨.tyTok i, sp⟩ :: rest
  | ⟨.eqTok, sp⟩ :: rest | ⟨.exprTok e, sp⟩ :: rest | ⟨.semi, sp⟩ :: rest =>
    simp [parseVisibility]

theorem expectStatic_ok_length {eof : Span} {toks rest : List STok}
    (h : expectStatic eof toks = .ok rest) : rest.length < toks.length := by
  match toks with
  | [] => simp [expectStatic] at h
  | ⟨.kwStatic, sp⟩ :: r =>
    simp [expectStatic] at h; subst h; simp
  | ⟨.attr, sp⟩ :: r | ⟨.visPub, sp⟩ :: r | ⟨.kwRef, sp⟩ :: r
  | ⟨.ident s, sp⟩ :: r | ⟨.colon, sp⟩ :: r | ⟨.tyTok i, sp⟩ :: r
  | ⟨.eqTok, sp⟩ :: r | ⟨.exprTok e, sp⟩ :: r | ⟨.semi, sp⟩ :: r =>
    simp [expectStatic] at h

theorem expectRef_ok_length {eof : Span} {toks rest : List STok}
    (h : expectRef eof toks = .ok rest) : rest.length < toks.length := by
  match toks with
  | [] => simp [expectRef] at h
  | ⟨.kwRef, sp⟩ :: r =>
    simp [expectRef] at h; subst h; simp
  | ⟨.attr, sp⟩ :: r | ⟨.visPub, sp⟩ :: r | ⟨.kwStatic, sp⟩ :: r
  | ⟨.ident s, sp⟩ :: r | ⟨.colon, sp⟩ :: r | ⟨.tyTok i, sp⟩ :: r
  | ⟨.eqTok, sp⟩ :: r | ⟨.exprTok e, sp⟩ :: r | ⟨.semi, sp⟩ :: r =>
    simp [expectRef] at h

theorem expectColon_ok_length {eof : Span} {toks rest : List STok}
    (h : expectColon eof toks = .ok rest) : rest.length < toks.length := by
  match toks with
  | [] => simp [expectColon] at h
  | ⟨.colon, sp⟩ :: r =>
    simp [expectColon] at h; subst h; simp
  | ⟨.attr, sp⟩ :: r | ⟨.visPub, sp⟩ :: r | ⟨.kwStatic, sp⟩ :: r
  | ⟨.kwRef, sp⟩ :: r | ⟨.ident s, sp⟩ :: r | ⟨.tyTok i, sp⟩ :: r
  | ⟨.eqTok, sp⟩ :: r | ⟨.exprTok e, sp⟩ :: r | ⟨.semi, sp⟩ :: r =>
    simp [expectColon] at h

theorem expectEq_ok_length {eof : Span} {toks rest : List STok}
    (h : expectEq eof toks = .ok rest) : rest.length < toks.length := by
  match toks with
  | [] => simp [expectEq] at h
  | ⟨.eqTok, sp⟩ :: r =>
    simp [expectEq] at h; subst h; simp
  | ⟨.attr, sp⟩ :: r | ⟨.visPub, sp⟩ :: r | ⟨.kwStatic, sp⟩ :: r
  | ⟨.kwRef, sp⟩ :: r | ⟨.ident s, sp⟩ :: r | ⟨.colon, sp⟩ :: r
  | ⟨.tyTok i, sp⟩ :: r | ⟨.exprTok e, sp⟩ :: r | ⟨.semi, sp⟩ :: r =>
    simp [expectEq] at h

theorem expectSemi_ok_length {eof : Span} {toks rest : List STok}
    (h : expectSemi eof toks = .ok rest) : rest.length < toks.length := by
  match toks with
  | [] => simp [expectSemi] at h
  | ⟨.semi, sp⟩ :: r =>
    simp [expectSemi] at h; subst h; simp
  | ⟨.attr, sp⟩ :: r | ⟨.visPub, sp⟩ :: r | ⟨.kwStatic, sp⟩ :: r
  | ⟨.kwRef, sp⟩ :: r | ⟨.ident s, sp⟩ :: r | ⟨.colon, sp⟩ :: r
  | ⟨.tyTok i, sp⟩ :: r | ⟨.eqTok, sp⟩ :: r | ⟨.exprTok e, sp⟩ :: r =>
    simp [expectSemi] at h

theorem parseIdent_ok_length {eof : Span} {toks : List STok} {s : String}
    {rest : List STok} (h : parseIdent eof toks = .ok (s, rest)) :
    rest.length < toks.length := by
  match toks with
  | [] => simp [parseIdent] at h
  | ⟨.ident nm, sp⟩ :: r =>
    simp [parseIdent] at h; rw [h.2]; simp
  | ⟨.attr, sp⟩ :: r | ⟨.visPub, sp⟩ :: r | ⟨.kwStatic, sp⟩ :: r
  | ⟨.kwRef, sp⟩ :: r | ⟨.colon, sp⟩ :: r | ⟨.tyTok i, sp⟩ :: r
  | ⟨.eqTok, sp⟩ :: r | ⟨.exprTok e, sp⟩ :: r | ⟨.semi, sp⟩ :: r =>
    simp [parseIdent] at h

theorem parseType_ok_length {eof : Span} {toks : List STok} {ty : Ty}
    {rest : List STok} (h : parseType eof toks = .ok (ty, rest)) :
    rest.length < toks.length := by
  match toks with
  | [] => simp [parseType] at h
  | ⟨.tyTok i, sp⟩ :: r =>
    simp [parseType] at h; rw [h.2]; simp
  | ⟨.attr, sp⟩ :: r | ⟨.visPub, sp⟩ :: r | ⟨.kwStatic, sp⟩ :: r
  | ⟨.kwRef, sp⟩ :: r | ⟨.ident s, sp⟩ :: r | ⟨.colon, sp⟩ :: r
  | ⟨.eqTok, sp⟩ :: r | ⟨.exprTok e, sp⟩ :: r | ⟨.semi, sp⟩ :: r =>
    simp [parseType] at h

theorem parseExpr_ok_length {eof : Span} {toks : List STok} {init : SpannedExpr}
    {rest : List STok} (h : parseExpr eof toks = .ok (init, rest)) :
    rest.length < toks.length := by
  match toks with
  | [] => simp [parseExpr] at h
  | ⟨.exprTok e, sp⟩ :: r =>
    simp [parseExpr] at h; rw [h.2]; simp
  | ⟨.attr, sp⟩ :: r | ⟨.visPub, sp⟩ :: r | ⟨.kwStatic, sp⟩ :: r
  | ⟨.kwRef, sp⟩ :: r | ⟨.ident s, sp⟩ :: r | ⟨.colon, sp⟩ :: r
  | ⟨.tyTok i, sp⟩ :: r | ⟨.eqTok, sp⟩ :: r | ⟨.semi, sp⟩ :: r =>
    simp [parseExpr] at h

theorem parseOne_shrink {eof : Span} {toks : List STok} {s : EazyStatic}
    {rest : List STok} (h : parseOne eof toks = .ok (s, rest)) :
    rest.length < toks.length := by
  unfold parseOne at h
  split at h
  · exact absurd h (by simp)
  · rename_i toks3 hst
    split at h
    · exact absurd h (by simp)
    · rename_i toks4 href
      split at h
      · exact absurd h (by simp)
      · rename_i name toks5 hid
        split at h
        · exact absurd h (by simp)
        · rename_i toks6 hco
          split at h
          · exact absurd h (by simp)
          · rename_i ty toks7 hty
            split at h
            · exact absurd h (by simp)
            · rename_i toks8 heq
              split at h
              · exact absurd h (by simp)
              · rename_i init toks9 hex
                split at h
                · exact absurd h (by simp)
                · rename_i toks10 hsemi
                  simp at h
                  have h1 := expectStatic_ok_length hst
                  have h2 := expectRef_ok_length href
                  have h3 := parseIdent_ok_length hid
                  have h4 := expectColon_ok_length hco
                  have h5 := parseType_ok_length hty
                  have h6 := expectEq_ok_length heq
                  have h7 := parseExpr_ok_length hex
                  have h8 := expectSemi_ok_length hsemi
                  have h9 := dropAttrs_length_le toks
                  have h10 := parseVisibility_length_le (dropAttrs toks)
                  rw [h.2] at *
                  omega

/-- The `while !input.is_empty()` loop of `impl Parse for EazyStatics`:
parse declarations until the stream is exhausted, propagating the first
error. -/
def parseStatics (eof : Span) (toks : List STok) :
    Except ParseError (List EazyStatic) :=
  match toks with
  | [] => .ok []
  | t :: rest0 =>
    match h : parseOne eof (t :: rest0) with
    | .error e => .error e
    | .ok (s, rest) =>
      have : rest.length < (t :: rest0).length := parseOne_shrink h
      match parseStatics eof rest with
      | .error e => .error e
      | .ok ss => .ok (s :: ss)
termination_by toks.length

/-- The degenerate-initializer test of `eazy_static`:
`if let Expr::Tuple(ref init) = init { if init.elems.is_empty() { ... } }`.
True exactly for a top-level zero-element tuple expression `()`. -/
def isDegenerate : Expr → Bool
  | .tuple elems => elems.isEmpty
  | _ => false

/-- A trait bound used in a generated compile-time assertion. -/
inductive Bound where
  | sync
  | sized
deriving DecidableEq, Repr

/-- One generated `quote_spanned!` assertion
`struct _AssertX where #ty: std::marker::X;`, anchored at `ty.span()`. -/
structure Assertion where
  ty : Ty
  bound : Bound
  span : Span
deriving DecidableEq, Repr

/-- The generated `impl std::ops::Deref for #name` block: its target type,
the two compile-time assertions in the `deref` body, and the
`Box::into_raw(Box::new(#init))` initialiser expression anchored at
`init.span()`. -/
structure DerefImplData where
  name : String
  target : Ty
  assertSync : Assertion
  assertSized : Assertion
  initExpr : Expr
  initSpan : Span

/-- One top-level item of the macro's output token stream:
`markerStruct` is `#visibility struct #name { __ : () }`;
`markerStatic` is `#visibility static #name: #name = #name { __ : () };`;
`derefImpl` is the `impl std::ops::Deref for #name { ... }` block;
`initAll` is `pub fn init_all() { ... }` — a public function with no
parameters and no return value whose body is
`let _ = std::ops::Deref::deref(&#name);` for each listed name in order. -/
inductive Item where
  | markerStruct (vis : Visibility) (name : String)
  | markerStatic (vis : Visibility) (name : String)
  | derefImpl (d : DerefImplData)
  | initAll (derefNames : List String)

/-- Whether an item is the `init_all` function. -/
def isInitAllItem : Item → Bool
  | .initAll _ => true
  | _ => false

/-- The items one loop iteration of `eazy_static` appends to `out` for a
binding: the `quote!` block producing the marker struct, the hidden
marker static, and the `Deref` implementation with its spanned
assertions and spanned initialiser. -/
def bindingItems (s : EazyStatic) : List Item :=
  [ .markerStruct s.visibility s.name,
    .markerStatic s.visibility s.name,
    .derefImpl
      { name := s.name
        target := s.ty
        assertSync := { ty := s.ty, bound := .sync, span := s.ty.span }
        assertSized := { ty := s.ty, bound := .sized, span := s.ty.span }
        initExpr := s.init.e
        initSpan := s.init.span } ]

/-- The `while let Some(...) = iter.next()` loop of `eazy_static`,
carrying the accumulated output `out` and the accumulated
`deref_all` statements.  When a binding's initialiser is the empty
tuple the function returns `TokenStream::new()` — a fresh empty
stream, discarding everything accumulated so far (the
`init.span().unwrap()` call before the return computes a span and
drops it; no diagnostic is emitted). -/
def genLoop : List EazyStatic → List Item → List String → List Item
  | [], out, derefAll => out ++ [.initAll derefAll]
  | s :: rest, out, derefAll =>
    if isDegenerate s.init.e then []
    else genLoop rest (out ++ bindingItems s) (derefAll ++ [s.name])

/-- The body of `pub fn eazy_static(input: TokenStream)` after parsing:
iterate over the bindings accumulating output, then append the
`init_all` function. -/
def eazy_static (statics : List EazyStatic) : List Item :=
  genLoop statics [] []

/-- The whole macro entry point including `parse_macro_input!`: a parse
failure surfaces as the compiler diagnostic (the `Except.error` case);
otherwise the generator runs on the parsed bindings. -/
def eazyStaticMacro (eof : Span) (input : List STok) :
    Except ParseError (List Item) :=
  match parseStatics eof input with
  | .error e => .error e
  | .ok statics => .ok (eazy_static statics)

/-- Run-time state of one generated binding's lazy cell:
`onceDone` is whether the `static ONCE: std::sync::Once` has completed,
`value` is the `static mut VALUE: *mut T` slot (`none` models the null
pointer `0 as *mut T`), and `evals` instruments how many times the
initialiser expression has been evaluated. -/
structure DerefState (T : Type) where
  onceDone : Bool
  value : Option T
  evals : Nat
deriving Repr

/-- The state before any access: `ONCE` not yet run, `VALUE` null,
initialiser never evaluated. -/
def initialDerefState (T : Type) : DerefState T :=
  { onceDone := false, value := none, evals := 0 }

/-- One execution of the generated `deref` body:
`ONCE.call_once(|| VALUE = Box::into_raw(Box::new(#init))); &*VALUE`.
The `call_once` closure runs only if `ONCE` has not completed;
`std::sync::Once` guarantees the closure body is executed by exactly
one caller and that every caller returns only after it has completed,
so the guarded section is modelled as one atomic step.  The returned
value is the `VALUE` slot read after `call_once` returns. -/
def derefGen {T : Type} (initv : T) (s : DerefState T) :
    Option T × DerefState T :=
  let s' := if s.onceDone then s
            else { onceDone := true, value := some initv, evals := s.evals + 1 }
  (s'.value, s')

/-- Iterated access: `n` sequential executions of the generated `deref` body, collecting
the returned values in order. -/
def runDerefs {T : Type} (initv : T) : Nat → DerefState T →
    List (Option T) × DerefState T
  | 0, s => ([], s)
  | n + 1, s =>
    let (r, s') := derefGen initv s
    let (rs, s'') := runDerefs initv n s'
    (r :: rs, s'')

/-- An interleaved execution of `deref` by several threads: the schedule
lists, in the order the scheduler admits them through the `Once`
guard, the identifiers of the threads performing their dereference.
`obs` records the value each thread observed (`none` = has not run). -/
def runThreads {T : Type} (initv : T) :
    List Nat → DerefState T → (Nat → Option (Option T)) →
    DerefState T × (Nat → Option (Option T))
  | [], s, obs => (s, obs)
  | t :: rest, s, obs =>
    let (r, s') := derefGen initv s
    runThreads initv rest s' (fun u => if u = t then some r else obs u)

/-- A token list that is a run of outer attributes. -/
inductive AttrsOnly : List STok → Prop
  | nil : AttrsOnly []
  | cons (sp : Span) {rest : List STok} :
      AttrsOnly rest → AttrsOnly (⟨.attr, sp⟩ :: rest)

/-- The token shape of an optional visibility qualifier and the
`Visibility` it denotes. -/
inductive VisMatches : List STok → Visibility → Prop
  | inherited : VisMatches [] .inherited
  | explicitPub (sp : Span) : VisMatches [⟨.visPub, sp⟩] .pub

/-- Modelled from the spec, §4.1: the relation between a token stream and
a binding list drawn by the grammar
`declaration := attribute* visibility 'static' 'ref' IDENT ':' TYPE '=' EXPR ';'`,
repeated zero or more times until the input is exhausted.  Stated
independently of the parser so the parser can be proved to accept
exactly this language. -/
inductive GrammarMatches : List STok → List EazyStatic → Prop
  | nil : GrammarMatches [] []
  | cons (attrs vt rest : List STok) (vis : Visibility) (ss : List EazyStatic)
      (sp1 sp2 sp3 sp4 sp5 sp6 sp7 sp8 : Span) (n : String) (t : Nat)
      (e : Expr) :
      AttrsOnly attrs → VisMatches vt vis → GrammarMatches rest ss →
      GrammarMatches
        (attrs ++ vt ++ ⟨.kwStatic, sp1⟩ :: ⟨.kwRef, sp2⟩ :: ⟨.ident n, sp3⟩ ::
          ⟨.colon, sp4⟩ :: ⟨.tyTok t, sp5⟩ :: ⟨.eqTok, sp6⟩ ::
          ⟨.exprTok e, sp7⟩ :: ⟨.semi, sp8⟩ :: rest)
        (⟨vis, n, ⟨t, sp5⟩, ⟨e, sp7⟩⟩ :: ss)

theorem parseStatics_nil (eof : Span) : parseStatics eof [] = .ok [] := by
  rw [parseStatics]

theorem parseStatics_cons_eq (eof : Span) (toks : List STok) (hne : toks ≠ []) :
    parseStatics eof toks =
      (match parseOne eof toks with
      | .error e => .error e
      | .ok (s, rest) =>
        match parseStatics eof rest with
        | .error e => .error e
        | .ok ss => .ok (s :: ss)) := by
  match toks with
  | [] => exact absurd rfl hne
  | t :: r =>
    rw [parseStatics]
    split
    · rename_i e h
      rw [h]
    · rename_i s rest h
      conv_rhs => rw [h]

theorem dropAttrs_decomposition (toks : List STok) :
    ∃ attrs, AttrsOnly attrs ∧ toks = attrs ++ dropAttrs toks := by
  induction toks with
  | nil => exact ⟨[], .nil, by simp [dropAttrs]⟩
  | cons t rest ih =>
    match t with
    | ⟨.attr, sp⟩ =>
      obtain ⟨attrs, ha, he⟩ := ih
      exact ⟨⟨.attr, sp⟩ :: attrs, .cons sp ha, by simp [dropAttrs, ← he]⟩
    | ⟨.visPub, sp⟩ | ⟨.kwStatic, sp⟩ | ⟨.kwRef, sp⟩ | ⟨.ident s, sp⟩
    | ⟨.colon, sp⟩ | ⟨.tyTok i, sp⟩ | ⟨.eqTok, sp⟩ | ⟨.exprTok e, sp⟩
    | ⟨.semi, sp⟩ => exact ⟨[], .nil, by simp [dropAttrs]⟩

theorem dropAttrs_attrsOnly_append {attrs : List STok} (h : AttrsOnly attrs)
    (ts : List STok) : dropAttrs (attrs ++ ts) = dropAttrs ts := by
  induction h with
  | nil => simp
  | cons sp hrest ih => simpa [dropAttrs] using ih

theorem dropAttrs_subset {toks : List STok} :
    ∀ st ∈ dropAttrs toks, st ∈ toks := by
  induction toks with
  | nil => simp [dropAttrs]
  | cons t rest ih =>
    match t with
    | ⟨.attr, sp⟩ =>
      intro st hst
      exact List.mem_cons_of_mem _ (ih st (by simpa [dropAttrs] using hst))
    | ⟨.visPub, sp⟩ | ⟨.kwStatic, sp⟩ | ⟨.kwRef, sp⟩ | ⟨.ident s, sp⟩
    | ⟨.colon, sp⟩ | ⟨.tyTok i, sp⟩ | ⟨.eqTok, sp⟩ | ⟨.exprTok e, sp⟩
    | ⟨.semi, sp⟩ => intro st hst; simpa [dropAttrs] using hst

theorem parseVisibility_decomposition (toks : List STok) :
    ∃ vt, VisMatches vt (parseVisibility toks).1 ∧
      toks = vt ++ (parseVisibility toks).2 := by
  match toks with
  | [] => exact ⟨[], .inherited, by simp [parseVisibility]⟩
  | ⟨.visPub, sp⟩ :: rest =>
    exact ⟨[⟨.visPub, sp⟩], .explicitPub sp, by simp [parseVisibility]⟩
  | ⟨.attr, sp⟩ :: rest | ⟨.kwStatic, sp⟩ :: rest | ⟨.kwRef, sp⟩ :: rest
  | ⟨.ident s, sp⟩ :: rest | ⟨.colon, sp⟩ :: rest | ⟨.tyTok i, sp⟩ :: rest
  | ⟨.eqTok, sp⟩ :: rest | ⟨.exprTok e, sp⟩ :: rest | ⟨.semi, sp⟩ :: rest =>
    exact ⟨[], .inherited, by simp [parseVisibility]⟩

theorem parseVisibility_subset {toks : List STok} :
    ∀ st ∈ (parseVisibility toks).2, st ∈ toks := by
  obtain ⟨vt, _, he⟩ := parseVisibility_decomposition toks
  intro st hst
  rw [he]
  exact List.mem_append_right _ hst

theorem expectStatic_ok_char {eof : Span} {toks rest : List STok}
    (h : expectStatic eof toks = .ok rest) :
    ∃ sp, toks = ⟨.kwStatic, sp⟩ :: rest := by
  match toks with
  | [] => simp [expectStatic] at h
  | ⟨.kwStatic, sp⟩ :: r =>
    simp [expectStatic] at h; exact ⟨sp, by rw [h]⟩
  | ⟨.attr, sp⟩ :: r | ⟨.visPub, sp⟩ :: r | ⟨.kwRef, sp⟩ :: r
  | ⟨.ident s, sp⟩ :: r | ⟨.colon, sp⟩ :: r | ⟨.tyTok i, sp⟩ :: r
  | ⟨.eqTok, sp⟩ :: r | ⟨.exprTok e, sp⟩ :: r | ⟨.semi, sp⟩ :: r =>
    simp [expectStatic] at h

theorem expectRef_ok_char {eof : Span} {toks rest : List STok}
    (h : expectRef eof toks = .ok rest) :
    ∃ sp, toks = ⟨.kwRef, sp⟩ :: rest := by
  match toks with
  | [] => simp [expectRef] at h
  | ⟨.kwRef, sp⟩ :: r =>
    simp [expectRef] at h; exact ⟨sp, by rw [h]⟩
  | ⟨.attr, sp⟩ :: r | ⟨.visPub, sp⟩ :: r | ⟨.kwStatic, sp⟩ :: r
  | ⟨.ident s, sp⟩ :: r | ⟨.colon, sp⟩ :: r | ⟨.tyTok i, sp⟩ :: r
  | ⟨.eqTok, sp⟩ :: r | ⟨.exprTok e, sp⟩ :: r | ⟨.semi, sp⟩ :: r =>
    simp [expectRef] at h

theorem expectColon_ok_char {eof : Span} {toks rest : List STok}
    (h : expectColon eof toks = .ok rest) :
    ∃ sp, toks = ⟨.colon, sp⟩ :: rest := by
  match toks with
  | [] => simp [expectColon] at h
  | ⟨.colon, sp⟩ :: r =>
    simp [expectColon] at h; exact ⟨sp, by rw [h]⟩
  | ⟨.attr, sp⟩ :: r | ⟨.visPub, sp⟩ :: r | ⟨.kwStatic, sp⟩ :: r
  | ⟨.kwRef, sp⟩ :: r | ⟨.ident s, sp⟩ :: r | ⟨.tyTok i, sp⟩ :: r
  | ⟨.eqTok, sp⟩ :: r | ⟨.exprTok e, sp⟩ :: r | ⟨.semi, sp⟩ :: r =>
    simp [expectColon] at h

theorem expectEq_ok_char {eof : Span} {toks rest : List STok}
    (h : expectEq eof toks = .ok rest) :
    ∃ sp, toks = ⟨.eqTok, sp⟩ :: rest := by
  match toks with
  | [] => simp [expectEq] at h
  | ⟨.eqTok, sp⟩ :: r =>
    simp [expectEq] at h; exact ⟨sp, by rw [h]⟩
  | ⟨.attr, sp⟩ :: r | ⟨.visPub, sp⟩ :: r | ⟨.kwStatic, sp⟩ :: r
  | ⟨.kwRef, sp⟩ :: r | ⟨.ident s, sp⟩ :: r | ⟨.colon, sp⟩ :: r
  | ⟨.tyTok i, sp⟩ :: r | ⟨.exprTok e, sp⟩ :: r | ⟨.semi, sp⟩ :: r =>
    simp [expectEq] at h

theorem expectSemi_ok_char {eof : Span} {toks rest : List STok}
    (h : expectSemi eof toks = .ok rest) :
    ∃ sp, toks = ⟨.semi, sp⟩ :: rest := by
  match toks with
  | [] => simp [expectSemi] at h
  | ⟨.semi, sp⟩ :: r =>
    simp [expectSemi] at h; exact ⟨sp, by rw [h]⟩
  | ⟨.attr, sp⟩ :: r | ⟨.visPub, sp⟩ :: r | ⟨.kwStatic, sp⟩ :: r
  | ⟨.kwRef, sp⟩ :: r | ⟨.ident s, sp⟩ :: r | ⟨.colon, sp⟩ :: r
  | ⟨.tyTok i, sp⟩ :: r | ⟨.eqTok, sp⟩ :: r | ⟨.exprTok e, sp⟩ :: r =>
    simp [expectSemi] at h

theorem parseIdent_ok_char {eof : Span} {toks : List STok} {nm : String}
    {rest : List STok} (h : parseIdent eof toks = .ok (nm, rest)) :
    ∃ sp, toks = ⟨.ident nm, sp⟩ :: rest := by
  match toks with
  | [] => simp [parseIdent] at h
  | ⟨.ident s, sp⟩ :: r =>
    simp [parseIdent] at h; exact ⟨sp, by rw [h.1, h.2]⟩
  | ⟨.attr, sp⟩ :: r | ⟨.visPub, sp⟩ :: r | ⟨.kwStatic, sp⟩ :: r
  | ⟨.kwRef, sp⟩ :: r | ⟨.colon, sp⟩ :: r | ⟨.tyTok i, sp⟩ :: r
  | ⟨.eqTok, sp⟩ :: r | ⟨.exprTok e, sp⟩ :: r | ⟨.semi, sp⟩ :: r =>
    simp [parseIdent] at h

theorem parseType_ok_char {eof : Span} {toks : List STok} {ty : Ty}
    {rest : List STok} (h : parseType eof toks = .ok (ty, rest)) :
    toks = ⟨.tyTok ty.id, ty.span⟩ :: rest := by
  match toks with
  | [] => simp [parseType] at h
  | ⟨.tyTok i, sp⟩ :: r =>
    simp [parseType] at h; rw [← h.1, h.2]
  | ⟨.attr, sp⟩ :: r | ⟨.visPub, sp⟩ :: r | ⟨.kwStatic, sp⟩ :: r
  | ⟨.kwRef, sp⟩ :: r | ⟨.ident s, sp⟩ :: r | ⟨.colon, sp⟩ :: r
  | ⟨.eqTok, sp⟩ :: r | ⟨.exprTok e, sp⟩ :: r | ⟨.semi, sp⟩ :: r =>
    simp [parseType] at h

theorem parseExpr_ok_char {eof : Span} {toks : List STok} {init : SpannedExpr}
    {rest : List STok} (h : parseExpr eof toks = .ok (init, rest)) :
    toks = ⟨.exprTok init.e, init.span⟩ :: rest := by
  match toks with
  | [] => simp [parseExpr] at h
  | ⟨.exprTok e, sp⟩ :: r =>
    simp [parseExpr] at h; rw [← h.1, h.2]
  | ⟨.attr, sp⟩ :: r | ⟨.visPub, sp⟩ :: r | ⟨.kwStatic, sp⟩ :: r
  | ⟨.kwRef, sp⟩ :: r | ⟨.ident s, sp⟩ :: r | ⟨.colon, sp⟩ :: r
  | ⟨.tyTok i, sp⟩ :: r | ⟨.eqTok, sp⟩ :: r | ⟨.semi, sp⟩ :: r =>
    simp [parseExpr] at h

theorem parseOne_sound {eof : Span} {toks : List STok} {st : EazyStatic}
    {rest : List STok} (h : parseOne eof toks = .ok (st, rest)) :
    ∃ (attrs vt : List STok) (sp1 sp2 sp3 sp4 sp6 sp8 : Span),
      AttrsOnly attrs ∧ VisMatches vt st.visibility ∧
      toks = attrs ++ vt ++ ⟨.kwStatic, sp1⟩ :: ⟨.kwRef, sp2⟩ ::
        ⟨.ident st.name, sp3⟩ :: ⟨.colon, sp4⟩ ::
        ⟨.tyTok st.ty.id, st.ty.span⟩ :: ⟨.eqTok, sp6⟩ ::
        ⟨.exprTok st.init.e, st.init.span⟩ :: ⟨.semi, sp8⟩ :: rest := by
  unfold parseOne at h
  split at h
  · exact absurd h (by simp)
  · rename_i toks3 hst
    split at h
    · exact absurd h (by simp)
    · rename_i toks4 href
      split at h
      · exact absurd h (by simp)
      · rename_i name toks5 hid
        split at h
        · exact absurd h (by simp)
        · rename_i toks6 hco
          split at h
          · exact absurd h (by simp)
          · rename_i ty toks7 hty
            split at h
            · exact absurd h (by simp)
            · rename_i toks8 heq2
              split at h
              · exact absurd h (by simp)
              · rename_i init toks9 hex
                split at h
                · exact absurd h (by simp)
                · rename_i toks10 hsemi
                  simp at h
                  obtain ⟨hstEq, hrest⟩ := h
                  subst hstEq
                  subst hrest
                  obtain ⟨attrs, hA, hAeq⟩ := dropAttrs_decomposition toks
                  obtain ⟨vt, hV, hVeq⟩ :=
                    parseVisibility_decomposition (dropAttrs toks)
                  obtain ⟨sp1, h1⟩ := expectStatic_ok_char hst
                  obtain ⟨sp2, h2⟩ := expectRef_ok_char href
                  obtain ⟨sp3, h3⟩ := parseIdent_ok_char hid
                  obtain ⟨sp4, h4⟩ := expectColon_ok_char hco
                  have h5 := parseType_ok_char hty
                  obtain ⟨sp6, h6⟩ := expectEq_ok_char heq2
                  have h7 := parseExpr_ok_char hex
                  obtain ⟨sp8, h8⟩ := expectSemi_ok_char hsemi
                  refine ⟨attrs, vt, sp1, sp2, sp3, sp4, sp6, sp8, hA, hV, ?_⟩
                  rw [hAeq, hVeq, h1, h2, h3, h4, h5, h6, h7, h8]
                  simp

theorem parseOne_complete {attrs vt : List STok} {vis : Visibility}
    (hA : AttrsOnly attrs) (hV : VisMatches vt vis) (eof : Span)
    (sp1 sp2 sp3 sp4 sp5 sp6 sp7 sp8 : Span) (n : String) (t : Nat) (e : Expr)
    (rest : List STok) :
    parseOne eof (attrs ++ vt ++ ⟨.kwStatic, sp1⟩ :: ⟨.kwRef, sp2⟩ ::
      ⟨.ident n, sp3⟩ :: ⟨.colon, sp4⟩ :: ⟨.tyTok t, sp5⟩ :: ⟨.eqTok, sp6⟩ ::
      ⟨.exprTok e, sp7⟩ :: ⟨.semi, sp8⟩ :: rest) =
      .ok (⟨vis, n, ⟨t, sp5⟩, ⟨e, sp7⟩⟩, rest) := by
  cases hV with
  | inherited =>
    simp [parseOne, dropAttrs_attrsOnly_append hA, dropAttrs, parseVisibility,
      expectStatic, expectRef, parseIdent, expectColon, parseType, expectEq,
      parseExpr, expectSemi]
  | explicitPub sp =>
    simp [parseOne, dropAttrs_attrsOnly_append hA, dropAttrs, parseVisibility,
      expectStatic, expectRef, parseIdent, expectColon, parseType, expectEq,
      parseExpr, expectSemi]

theorem parseStatics_sound_fuel (eof : Span) :
    ∀ (fuel : Nat) (toks : List STok), toks.length ≤ fuel →
      ∀ ss, parseStatics eof toks = .ok ss → GrammarMatches toks ss := by
  intro fuel
  induction fuel with
  | zero =>
    intro toks hlen ss hp
    have hnil : toks = [] := List.length_eq_zero.mp (Nat.le_zero.mp hlen)
    subst hnil
    rw [parseStatics_nil] at hp
    simp at hp
    subst hp
    exact .nil
  | succ fuel ih =>
    intro toks hlen ss hp
    match toks with
    | [] =>
      rw [parseStatics_nil] at hp
      simp at hp
      subst hp
      exact .nil
    | tk :: r =>
      rw [parseStatics_cons_eq eof (tk :: r) (by simp)] at hp
      split at hp
      · exact absurd hp (by simp)
      · rename_i s rest hone
        split at hp
        · exact absurd hp (by simp)
        · rename_i ss' hrec
          simp at hp
          obtain ⟨attrs, vt, sp1, sp2, sp3, sp4, sp6, sp8, hA, hV, hdecomp⟩ :=
            parseOne_sound hone
          have hlt : rest.length < (tk :: r).length := parseOne_shrink hone
          have hle : rest.length ≤ fuel := by
            simp only [List.length_cons] at hlt hlen
            omega
          have hG := ih rest hle ss' hrec
          subst hp
          rw [hdecomp]
          exact GrammarMatches.cons attrs vt rest s.visibility ss'
            sp1 sp2 sp3 sp4 s.ty.span sp6 s.init.span sp8
            s.name s.ty.id s.init.e hA hV hG

theorem parseStatics_complete (eof : Span) {toks : List STok}
    {ss : List EazyStatic} (h : GrammarMatches toks ss) :
    parseStatics eof toks = .ok ss := by
  induction h with
  | nil => exact parseStatics_nil eof
  | cons attrs vt rest vis ss' sp1 sp2 sp3 sp4 sp5 sp6 sp7 sp8 n t e hA hV hG
      ih =>
    have hone := parseOne_complete hA hV eof sp1 sp2 sp3 sp4 sp5 sp6 sp7 sp8
      n t e rest
    rw [parseStatics_cons_eq eof _ (by simp), hone]
    simp [ih]

theorem errorSpan_mono {toks l : List STok} {e : ParseError} {eof : Span}
    (hsub : l ⊆ toks)
    (h : (∃ st ∈ l, st.span = e.span) ∨ e.span = eof) :
    (∃ st ∈ toks, st.span = e.span) ∨ e.span = eof := by
  rcases h with ⟨st, hm, hs⟩ | he
  · exact .inl ⟨st, hsub hm, hs⟩
  · exact .inr he

theorem expectStatic_error_span {eof : Span} {toks : List STok} {e : ParseError}
    (h : expectStatic eof toks = .error e) :
    (∃ st ∈ toks, st.span = e.span) ∨ e.span = eof := by
  match toks with
  | [] =>
    simp [expectStatic] at h
    exact .inr (by rw [← h])
  | ⟨.kwStatic, sp⟩ :: r => simp [expectStatic] at h
  | ⟨.attr, sp⟩ :: r | ⟨.visPub, sp⟩ :: r | ⟨.kwRef, sp⟩ :: r
  | ⟨.ident s, sp⟩ :: r | ⟨.colon, sp⟩ :: r | ⟨.tyTok i, sp⟩ :: r
  | ⟨.eqTok, sp⟩ :: r | ⟨.exprTok ex, sp⟩ :: r | ⟨.semi, sp⟩ :: r =>
    simp [expectStatic] at h
    exact .inl ⟨_, List.mem_cons_self _ _, by rw [← h]⟩

theorem expectRef_error_span {eof : Span} {toks : List STok} {e : ParseError}
    (h : expectRef eof toks = .error e) :
    (∃ st ∈ toks, st.span = e.span) ∨ e.span = eof := by
  match toks with
  | [] =>
    simp [expectRef] at h
    exact .inr (by rw [← h])
  | ⟨.kwRef, sp⟩ :: r => simp [expectRef] at h
  | ⟨.attr, sp⟩ :: r | ⟨.visPub, sp⟩ :: r | ⟨.kwStatic, sp⟩ :: r
  | ⟨.ident s, sp⟩ :: r | ⟨.colon, sp⟩ :: r | ⟨.tyTok i, sp⟩ :: r
  | ⟨.eqTok, sp⟩ :: r | ⟨.exprTok ex, sp⟩ :: r | ⟨.semi, sp⟩ :: r =>
    simp [expectRef] at h
    exact .inl ⟨_, List.mem_cons_self _ _, by rw [← h]⟩

theorem expectColon_error_span {eof : Span} {toks : List STok} {e : ParseError}
    (h : expectColon eof toks = .error e) :
    (∃ st ∈ toks, st.span = e.span) ∨ e.span = eof := by
  match toks with
  | [] =>
    simp [expectColon] at h
    exact .inr (by rw [← h])
  | ⟨.colon, sp⟩ :: r => simp [expectColon] at h
  | ⟨.attr, sp⟩ :: r | ⟨.visPub, sp⟩ :: r | ⟨.kwStatic, sp⟩ :: r
  | ⟨.kwRef, sp⟩ :: r | ⟨.ident s, sp⟩ :: r | ⟨.tyTok i, sp⟩ :: r
  | ⟨.eqTok, sp⟩ :: r | ⟨.exprTok ex, sp⟩ :: r | ⟨.semi, sp⟩ :: r =>
    simp [expectColon] at h
    exact .inl ⟨_, List.mem_cons_self _ _, by rw [← h]⟩

theorem expectEq_error_span {eof : Span} {toks : List STok} {e : ParseError}
    (h : expectEq eof toks = .error e) :
    (∃ st ∈ toks, st.span = e.span) ∨ e.span = eof := by
  match toks with
  | [] =>
    simp [expectEq] at h
    exact .inr (by rw [← h])
  | ⟨.eqTok, sp⟩ :: r => simp [expectEq] at h
  | ⟨.attr, sp⟩ :: r | ⟨.visPub, sp⟩ :: r | ⟨.kwStatic, sp⟩ :: r
  | ⟨.kwRef, sp⟩ :: r | ⟨.ident s, sp⟩ :: r | ⟨.colon, sp⟩ :: r
  | ⟨.tyTok i, sp⟩ :: r | ⟨.exprTok ex, sp⟩ :: r | ⟨.semi, sp⟩ :: r =>
    simp [expectEq] at h
    exact .inl ⟨_, List.mem_cons_self _ _, by rw [← h]⟩

theorem expectSemi_error_span {eof : Span} {toks : List STok} {e : ParseError}
    (h : expectSemi eof toks = .error e) :
    (∃ st ∈ toks, st.span = e.span) ∨ e.span = eof := by
  match toks with
  | [] =>
    simp [expectSemi] at h
    exact .inr (by rw [← h])
  | ⟨.semi, sp⟩ :: r => simp [expectSemi] at h
  | ⟨.attr, sp⟩ :: r | ⟨.visPub, sp⟩ :: r | ⟨.kwStatic, sp⟩ :: r
  | ⟨.kwRef, sp⟩ :: r | ⟨.ident s, sp⟩ :: r | ⟨.colon, sp⟩ :: r
  | ⟨.tyTok i, sp⟩ :: r | ⟨.eqTok, sp⟩ :: r | ⟨.exprTok ex, sp⟩ :: r =>
    simp [expectSemi] at h
    exact .inl ⟨_, List.mem_cons_self _ _, by rw [← h]⟩

theorem parseIdent_error_span {eof : Span} {toks : List STok} {e : ParseError}
    (h : parseIdent eof toks = .error e) :
    (∃ st ∈ toks, st.span = e.span) ∨ e.span = eof := by
  match toks with
  | [] =>
    simp [parseIdent] at h
    exact .inr (by rw [← h])
  | ⟨.ident s, sp⟩ :: r => simp [parseIdent] at h
  | ⟨.attr, sp⟩ :: r | ⟨.visPub, sp⟩ :: r | ⟨.kwStatic, sp⟩ :: r
  | ⟨.kwRef, sp⟩ :: r | ⟨.colon, sp⟩ :: r | ⟨.tyTok i, sp⟩ :: r
  | ⟨.eqTok, sp⟩ :: r | ⟨.exprTok ex, sp⟩ :: r | ⟨.semi, sp⟩ :: r =>
    simp [parseIdent] at h
    exact .inl ⟨_, List.mem_cons_self _ _, by rw [← h]⟩

theorem parseType_error_span {eof : Span} {toks : List STok} {e : ParseError}
    (h : parseType eof toks = .error e) :
    (∃ st ∈ toks, st.span = e.span) ∨ e.span = eof := by
  match toks with
  | [] =>
    simp [parseType] at h
    exact .inr (by rw [← h])
  | ⟨.tyTok i, sp⟩ :: r => simp [parseType] at h
  | ⟨.attr, sp⟩ :: r | ⟨.visPub, sp⟩ :: r | ⟨.kwStatic, sp⟩ :: r
  | ⟨.kwRef, sp⟩ :: r | ⟨.ident s, sp⟩ :: r | ⟨.colon, sp⟩ :: r
  | ⟨.eqTok, sp⟩ :: r | ⟨.exprTok ex, sp⟩ :: r | ⟨.semi, sp⟩ :: r =>
    simp [parseType] at h
    exact .inl ⟨_, List.mem_cons_self _ _, by rw [← h]⟩

theorem parseExpr_error_span {eof : Span} {toks : List STok} {e : ParseError}
    (h : parseExpr eof toks = .error e) :
    (∃ st ∈ toks, st.span = e.span) ∨ e.span = eof := by
  match toks with
  | [] =>
    simp [parseExpr] at h
    exact .inr (by rw [← h])
  | ⟨.exprTok ex, sp⟩ :: r => simp [parseExpr] at h
  | ⟨.attr, sp⟩ :: r | ⟨.visPub, sp⟩ :: r | ⟨.kwStatic, sp⟩ :: r
  | ⟨.kwRef, sp⟩ :: r | ⟨.ident s, sp⟩ :: r | ⟨.colon, sp⟩ :: r
  | ⟨.tyTok i, sp⟩ :: r | ⟨.eqTok, sp⟩ :: r | ⟨.semi, sp⟩ :: r =>
    simp [parseExpr] at h
    exact .inl ⟨_, List.mem_cons_self _ _, by rw [← h]⟩

theorem parseOne_error_span {eof : Span} {toks : List STok} {e : ParseError}
    (h : parseOne eof toks = .error e) :
    (∃ st ∈ toks, st.span = e.span) ∨ e.span = eof := by
  have hsub2 : (parseVisibility (dropAttrs toks)).2 ⊆ toks := fun x hx =>
    dropAttrs_subset x (parseVisibility_subset x hx)
  unfold parseOne at h
  split at h
  · rename_i e1 h1
    simp at h
    subst h
    exact errorSpan_mono hsub2 (expectStatic_error_span h1)
  · rename_i toks3 h1
    have hsub3 : toks3 ⊆ toks := by
      obtain ⟨sp, hc⟩ := expectStatic_ok_char h1
      intro x hx
      exact hsub2 (hc ▸ List.mem_cons_of_mem _ hx)
    split at h
    · rename_i e1 h2
      simp at h
      subst h
      exact errorSpan_mono hsub3 (expectRef_error_span h2)
    · rename_i toks4 h2
      have hsub4 : toks4 ⊆ toks := by
        obtain ⟨sp, hc⟩ := expectRef_ok_char h2
        intro x hx
        exact hsub3 (hc ▸ List.mem_cons_of_mem _ hx)
      split at h
      · rename_i e1 h3
        simp at h
        subst h
        exact errorSpan_mono hsub4 (parseIdent_error_span h3)
      · rename_i name toks5 h3
        have hsub5 : toks5 ⊆ toks := by
          obtain ⟨sp, hc⟩ := parseIdent_ok_char h3
          intro x hx
          exact hsub4 (hc ▸ List.mem_cons_of_mem _ hx)
        split at h
        · rename_i e1 h4
          simp at h
          subst h
          exact errorSpan_mono hsub5 (expectColon_error_span h4)
        · rename_i toks6 h4
          have hsub6 : toks6 ⊆ toks := by
            obtain ⟨sp, hc⟩ := expectColon_ok_char h4
            intro x hx
            exact hsub5 (hc ▸ List.mem_cons_of_mem _ hx)
          split at h
          · rename_i e1 h5
            simp at h
            subst h
            exact errorSpan_mono hsub6 (parseType_error_span h5)
          · rename_i ty toks7 h5
            have hsub7 : toks7 ⊆ toks := by
              have hc := parseType_ok_char h5
              intro x hx
              exact hsub6 (hc ▸ List.mem_cons_of_mem _ hx)
            split at h
            · rename_i e1 h6
              simp at h
              subst h
              exact errorSpan_mono hsub7 (expectEq_error_span h6)
            · rename_i toks8 h6
              have hsub8 : toks8 ⊆ toks := by
                obtain ⟨sp, hc⟩ := expectEq_ok_char h6
                intro x hx
                exact hsub7 (hc ▸ List.mem_cons_of_mem _ hx)
              split at h
              · rename_i e1 h7
                simp at h
                subst h
                exact errorSpan_mono hsub8 (parseExpr_error_span h7)
              · rename_i init toks9 h7
                have hsub9 : toks9 ⊆ toks := by
                  have hc := parseExpr_ok_char h7
                  intro x hx
                  exact hsub8 (hc ▸ List.mem_cons_of_mem _ hx)
                split at h
                · rename_i e1 h8
                  simp at h
                  subst h
                  exact errorSpan_mono hsub9 (expectSemi_error_span h8)
                · exact absurd h (by simp)

theorem parseStatics_error_span_fuel (eof : Span) :
    ∀ (fuel : Nat) (toks : List STok), toks.length ≤ fuel →
      ∀ e, parseStatics eof toks = .error e →
        (∃ st ∈ toks, st.span = e.span) ∨ e.span = eof := by
  intro fuel
  induction fuel with
  | zero =>
    intro toks hlen e hp
    have hnil : toks = [] := List.length_eq_zero.mp (Nat.le_zero.mp hlen)
    subst hnil
    rw [parseStatics_nil] at hp
    simp at hp
  | succ fuel ih =>
    intro toks hlen e hp
    match toks with
    | [] =>
      rw [parseStatics_nil] at hp
      simp at hp
    | tk :: r =>
      rw [parseStatics_cons_eq eof (tk :: r) (by simp)] at hp
      split at hp
      · rename_i e1 h1
        simp at hp
        subst hp
        exact parseOne_error_span h1
      · rename_i s rest hone
        split at hp
        · rename_i e1 hrec
          simp at hp
          subst hp
          have hsub : rest ⊆ tk :: r := by
            obtain ⟨attrs, vt, sp1, sp2, sp3, sp4, sp6, sp8, hA, hV, hdec⟩ :=
              parseOne_sound hone
            rw [hdec]
            intro x hx
            simp [hx]
          have hlt := parseOne_shrink hone
          have hle : rest.length ≤ fuel := by
            simp only [List.length_cons] at hlt hlen
            omega
          exact errorSpan_mono hsub (ih rest hle e1 hrec)
        · exact absurd hp (by simp)

theorem attrsOnly_map (spans : List Span) :
    AttrsOnly (spans.map fun sp => (⟨.attr, sp⟩ : STok)) := by
  induction spans with
  | nil => exact .nil
  | cons sp rest ih => exact .cons sp ih

theorem parseOne_attrs_append {attrs : List STok} (hA : AttrsOnly attrs)
    (eof : Span) (ts : List STok) :
    parseOne eof (attrs ++ ts) = parseOne eof ts := by
  unfold parseOne
  rw [dropAttrs_attrsOnly_append hA]

theorem genLoop_no_degenerate :
    ∀ (statics : List EazyStatic) (out : List Item) (derefAll : List String),
      (∀ s ∈ statics, isDegenerate s.init.e = false) →
      genLoop statics out derefAll =
        out ++ statics.flatMap bindingItems ++
          [.initAll (derefAll ++ statics.map EazyStatic.name)] := by
  intro statics
  induction statics with
  | nil =>
    intro out derefAll h
    simp [genLoop]
  | cons s rest ih =>
    intro out derefAll h
    have hs : isDegenerate s.init.e = false := h s (by simp)
    have hrest : ∀ x ∈ rest, isDegenerate x.init.e = false := fun x hx =>
      h x (by simp [hx])
    simp [genLoop, hs, ih (out ++ bindingItems s) (derefAll ++ [s.name]) hrest]

theorem genLoop_degenerate :
    ∀ (statics : List EazyStatic) (out : List Item) (derefAll : List String),
      (∃ s ∈ statics, isDegenerate s.init.e = true) →
      genLoop statics out derefAll = [] := by
  intro statics
  induction statics with
  | nil =>
    intro out derefAll h
    simp at h
  | cons s rest ih =>
    intro out derefAll h
    by_cases hs : isDegenerate s.init.e = true
    · simp [genLoop, hs]
    · rw [Bool.not_eq_true] at hs
      rcases h with ⟨x, hx, hdeg⟩
      rcases List.mem_cons.mp hx with rfl | hxr
      · rw [hs] at hdeg
        exact absurd hdeg (by simp)
      · simp [genLoop, hs]
        exact ih _ _ ⟨x, hxr, hdeg⟩

theorem derefGen_done {T : Type} (initv : T) (s : DerefState T)
    (h : s.onceDone = true) : derefGen initv s = (s.value, s) := by
  simp [derefGen, h]

theorem runDerefs_done {T : Type} (initv : T) :
    ∀ (n : Nat) (s : DerefState T), s.onceDone = true →
      runDerefs initv n s = (List.replicate n s.value, s) := by
  intro n
  induction n with
  | zero =>
    intro s h
    simp [runDerefs]
  | succ n ih =>
    intro s h
    simp [runDerefs, derefGen_done initv s h, ih s h, List.replicate_succ]

theorem runThreads_done {T : Type} (initv : T) :
    ∀ (sched : List Nat) (s : DerefState T) (obs : Nat → Option (Option T)),
      s.onceDone = true → s.value = some initv →
      (runThreads initv sched s obs).1 = s ∧
      ∀ u, (runThreads initv sched s obs).2 u =
        if u ∈ sched then some (some initv) else obs u := by
  intro sched
  induction sched with
  | nil =>
    intro s obs h1 h2
    simp [runThreads]
  | cons t rest ih =>
    intro s obs h1 h2
    have hstep : derefGen initv s = (some initv, s) := by
      simp [derefGen, h1, h2]
    have hrun : runThreads initv (t :: rest) s obs =
        runThreads initv rest s
          (fun u => if u = t then some (some initv) else obs u) := by
      simp [runThreads, hstep]
    obtain ⟨hfst, hsnd⟩ :=
      ih s (fun u => if u = t then some (some initv) else obs u) h1 h2
    refine ⟨by rw [hrun, hfst], ?_⟩
    intro u
    rw [hrun, hsnd u]
    by_cases hur : u ∈ rest
    · simp [hur]
    · by_cases hut : u = t
      · simp [hur, hut]
      · simp [hur, hut]

/-- C1: for every input block that parses successfully, if any binding's
initializer expression is a zero-element parenthesized grouping (the
empty tuple `()`), the macro expansion returns a completely empty token
sequence for the whole invocation — no marker symbols for any binding,
no `init_all` function — and no diagnostic is raised (the result is a
successful expansion to nothing, not an error). -/
theorem c1_degenerate_empty_output (eof : Span) (toks : List STok)
    (statics : List EazyStatic)
    (hp : parseStatics eof toks = .ok statics)
    (hd : ∃ s ∈ statics, isDegenerate s.init.e = true) :
    eazyStaticMacro eof toks = .ok [] := by
  simp [eazyStaticMacro, hp, eazy_static, genLoop_degenerate statics [] [] hd]

theorem c1_witness :
    eazyStaticMacro 99
      [⟨.kwStatic, 0⟩, ⟨.kwRef, 1⟩, ⟨.ident "A", 2⟩, ⟨.colon, 3⟩,
       ⟨.tyTok 0, 4⟩, ⟨.eqTok, 5⟩, ⟨.exprTok (.lit 1), 6⟩, ⟨.semi, 7⟩,
       ⟨.kwStatic, 8⟩, ⟨.kwRef, 9⟩, ⟨.ident "B", 10⟩, ⟨.colon, 11⟩,
       ⟨.tyTok 1, 12⟩, ⟨.eqTok, 13⟩, ⟨.exprTok (.tuple []), 14⟩,
       ⟨.semi, 15⟩] = .ok [] :=
  c1_degenerate_empty_output 99 _
    [⟨.inherited, "A", ⟨0, 4⟩, ⟨.lit 1, 6⟩⟩,
     ⟨.inherited, "B", ⟨1, 12⟩, ⟨.tuple [], 14⟩⟩]
    (by simp [parseStatics, parseOne, dropAttrs, parseVisibility,
      expectStatic, expectRef, parseIdent, expectColon, parseType, expectEq,
      parseExpr, expectSemi])
    ⟨⟨.inherited, "B", ⟨1, 12⟩, ⟨.tuple [], 14⟩⟩,
      List.mem_cons_of_mem _ (List.mem_cons_self _ _), rfl⟩

/-- C2: for every successfully parsed, non-degenerate binding set, the
generated output ends with exactly one `init_all` item (a public
function with no parameters and no return value) whose body performs
the dereference operation on every binding's marker symbol in source
order, and it comes after all per-binding output, which contains no
`init_all` item of its own. -/
theorem c2_init_all_last (statics : List EazyStatic)
    (h : ∀ s ∈ statics, isDegenerate s.init.e = false) :
    eazy_static statics =
      statics.flatMap bindingItems ++
        [.initAll (statics.map EazyStatic.name)] ∧
    ∀ i ∈ statics.flatMap bindingItems, isInitAllItem i = false := by
  constructor
  · simpa [eazy_static] using genLoop_no_degenerate statics [] [] h
  · intro i hi
    rw [List.mem_flatMap] at hi
    obtain ⟨s, hs, hmem⟩ := hi
    simp [bindingItems] at hmem
    rcases hmem with rfl | rfl | rfl <;> rfl

theorem c2_witness :
    eazy_static [⟨.pub, "A", ⟨0, 4⟩, ⟨.lit 1, 6⟩⟩] =
      ([⟨.pub, "A", ⟨0, 4⟩, ⟨.lit 1, 6⟩⟩] : List EazyStatic).flatMap
          bindingItems ++
        [.initAll (([⟨.pub, "A", ⟨0, 4⟩, ⟨.lit 1, 6⟩⟩] :
          List EazyStatic).map EazyStatic.name)] :=
  (c2_init_all_last [⟨.pub, "A", ⟨0, 4⟩, ⟨.lit 1, 6⟩⟩]
    (by intro s hs; simp at hs; rw [hs]; rfl)).1

/-- C5: an input block containing zero declarations produces exactly one
item: the `init_all` function with an empty body, and no marker
symbols or dereference implementations. -/
theorem c5_empty_block : eazy_static [] = [Item.initAll []] := rfl

/-- C6: for every binding of a non-degenerate block, the generated output
contains the dereference implementation for that binding, and it carries
two compile-time assertions on the declared type — a `Sync` bound and a
`Sized` bound — both anchored at the type annotation's source span. -/
theorem c6_assertions (statics : List EazyStatic) (s : EazyStatic)
    (hs : s ∈ statics) (h : ∀ x ∈ statics, isDegenerate x.init.e = false) :
    Item.derefImpl
        { name := s.name, target := s.ty
          assertSync := ⟨s.ty, .sync, s.ty.span⟩
          assertSized := ⟨s.ty, .sized, s.ty.span⟩
          initExpr := s.init.e, initSpan := s.init.span } ∈
      eazy_static statics := by
  have he : eazy_static statics =
      statics.flatMap bindingItems ++
        [.initAll (statics.map EazyStatic.name)] := by
    simpa [eazy_static] using genLoop_no_degenerate statics [] [] h
  rw [he]
  refine List.mem_append_left _ ?_
  rw [List.mem_flatMap]
  exact ⟨s, hs, by simp [bindingItems]⟩

theorem c6_witness :
    Item.derefImpl
        { name := "A", target := ⟨0, 4⟩
          assertSync := ⟨⟨0, 4⟩, .sync, 4⟩
          assertSized := ⟨⟨0, 4⟩, .sized, 4⟩
          initExpr := .lit 1, initSpan := 6 } ∈
      eazy_static [⟨.pub, "A", ⟨0, 4⟩, ⟨.lit 1, 6⟩⟩] :=
  c6_assertions [⟨.pub, "A", ⟨0, 4⟩, ⟨.lit 1, 6⟩⟩]
    ⟨.pub, "A", ⟨0, 4⟩, ⟨.lit 1, 6⟩⟩ (List.mem_cons_self _ _)
    (by intro s hs; simp at hs; rw [hs]; rfl)

/-- C3: for a single generated binding, under any sequence of `n ≥ 1`
dereference accesses the initializer is evaluated exactly once (on the
first access), the stored slot holds the initializer's value, and every
access (first or later) returns exactly the stored value. -/
theorem c3_eval_once {T : Type} (initv : T) (n : Nat) (hn : 1 ≤ n) :
    (runDerefs initv n (initialDerefState T)).2.evals = 1 ∧
    (runDerefs initv n (initialDerefState T)).2.value = some initv ∧
    ∀ r ∈ (runDerefs initv n (initialDerefState T)).1,
      r = (runDerefs initv n (initialDerefState T)).2.value := by
  obtain ⟨m, rfl⟩ : ∃ m, n = m + 1 := ⟨n - 1, by omega⟩
  have hstep : derefGen initv (initialDerefState T) =
      (some initv, ⟨true, some initv, 1⟩) := rfl
  have hrest := runDerefs_done initv m (⟨true, some initv, 1⟩ : DerefState T)
    rfl
  have hall : runDerefs initv (m + 1) (initialDerefState T) =
      (some initv :: List.replicate m (some initv),
        ⟨true, some initv, 1⟩) := by
    simp [runDerefs, hstep, hrest]
  rw [hall]
  refine ⟨rfl, rfl, ?_⟩
  intro r hr
  rcases List.mem_cons.mp hr with rfl | hrep
  · rfl
  · exact List.eq_of_mem_replicate hrep

theorem c3_witness :
    (runDerefs 42 3 (initialDerefState Nat)).2.evals = 1 ∧
    (runDerefs 42 3 (initialDerefState Nat)).2.value = some 42 :=
  ⟨(c3_eval_once 42 3 (by decide)).1, (c3_eval_once 42 3 (by decide)).2.1⟩

/-- C4: the parser accepts exactly the language of the grammar
`attribute* visibility 'static' 'ref' IDENT ':' TYPE '=' EXPR ';'`
repeated until the input is exhausted (the success cases are precisely
the `GrammarMatches` derivations), and on malformed input it fails with
a `ParseError` whose location is the span of one of the input's tokens
(the offending one) or the end-of-input position, stopping at the first
error. -/
theorem c4_parser_exact_grammar (eof : Span) (toks : List STok) :
    (∀ ss, parseStatics eof toks = .ok ss ↔ GrammarMatches toks ss) ∧
    (∀ e, parseStatics eof toks = .error e →
      (∃ st ∈ toks, st.span = e.span) ∨ e.span = eof) := by
  refine ⟨fun ss => ⟨?_, ?_⟩, fun e he => ?_⟩
  · exact parseStatics_sound_fuel eof toks.length toks le_rfl ss
  · exact parseStatics_complete eof
  · exact parseStatics_error_span_fuel eof toks.length toks le_rfl e he

theorem c4_witness :
    GrammarMatches
      [⟨.attr, 0⟩, ⟨.visPub, 1⟩, ⟨.kwStatic, 2⟩, ⟨.kwRef, 3⟩,
       ⟨.ident "A", 4⟩, ⟨.colon, 5⟩, ⟨.tyTok 0, 6⟩, ⟨.eqTok, 7⟩,
       ⟨.exprTok (.lit 1), 8⟩, ⟨.semi, 9⟩]
      [⟨.pub, "A", ⟨0, 6⟩, ⟨.lit 1, 8⟩⟩] :=
  ((c4_parser_exact_grammar 99 _).1 _).mp
    (by simp [parseStatics, parseOne, dropAttrs, parseVisibility,
      expectStatic, expectRef, parseIdent, expectColon, parseType, expectEq,
      parseExpr, expectSemi])

theorem attrsOnly_append {a1 a2 : List STok} (h1 : AttrsOnly a1)
    (h2 : AttrsOnly a2) : AttrsOnly (a1 ++ a2) := by
  induction h1 with
  | nil => simpa
  | cons sp hrest ih =>
    rw [List.cons_append]
    exact .cons sp ih

theorem grammarMatches_append {t1 t2 : List STok} {ss1 ss2 : List EazyStatic}
    (h1 : GrammarMatches t1 ss1) (h2 : GrammarMatches t2 ss2) :
    GrammarMatches (t1 ++ t2) (ss1 ++ ss2) := by
  induction h1 with
  | nil => simpa
  | cons attrs vt rest vis ss sp1 sp2 sp3 sp4 sp5 sp6 sp7 sp8 n t e hA hV hG
      ih =>
    have hc := GrammarMatches.cons attrs vt (rest ++ t2) vis (ss ++ ss2)
      sp1 sp2 sp3 sp4 sp5 sp6 sp7 sp8 n t e hA hV ih
    simpa using hc

theorem grammarMatches_attrs_insert {attrs t2 : List STok}
    {ss2 : List EazyStatic} (hA : AttrsOnly attrs)
    (h : GrammarMatches t2 ss2) (hne : t2 ≠ []) :
    GrammarMatches (attrs ++ t2) ss2 := by
  cases h with
  | nil => exact absurd rfl hne
  | cons attrs0 vt rest vis ss sp1 sp2 sp3 sp4 sp5 sp6 sp7 sp8 n t e hA0 hV
      hG =>
    have hc := GrammarMatches.cons (attrs ++ attrs0) vt rest vis ss
      sp1 sp2 sp3 sp4 sp5 sp6 sp7 sp8 n t e (attrsOnly_append hA hA0) hV hG
    simpa using hc

/-- C7: for every declaration in a block, any leading outer attributes are
parsed and then discarded: at any declaration boundary — after a prefix
`t1` of complete declarations, before a suffix `t2` that starts with a
declaration — inserting a run of outer attributes leaves the produced
binding set unchanged (it is still the bindings of the prefix followed
by those of the suffix), and therefore the attributes appear nowhere in
the generated output, which is identical with and without them. -/
theorem c7_attrs_discarded (eof : Span) (attrSpans : List Span)
    (t1 t2 : List STok) (ss1 ss2 : List EazyStatic)
    (h1 : parseStatics eof t1 = .ok ss1)
    (h2 : parseStatics eof t2 = .ok ss2)
    (hne : t2 ≠ []) :
    parseStatics eof
        (t1 ++ (attrSpans.map fun sp => (⟨.attr, sp⟩ : STok)) ++ t2) =
      .ok (ss1 ++ ss2) ∧
    eazyStaticMacro eof
        (t1 ++ (attrSpans.map fun sp => (⟨.attr, sp⟩ : STok)) ++ t2) =
      eazyStaticMacro eof (t1 ++ t2) := by
  have hg1 := parseStatics_sound_fuel eof t1.length t1 le_rfl ss1 h1
  have hg2 := parseStatics_sound_fuel eof t2.length t2 le_rfl ss2 h2
  have hins := grammarMatches_attrs_insert (attrsOnly_map attrSpans) hg2 hne
  have hp1 : parseStatics eof
      (t1 ++ (attrSpans.map fun sp => (⟨.attr, sp⟩ : STok)) ++ t2) =
      .ok (ss1 ++ ss2) := by
    rw [List.append_assoc]
    exact parseStatics_complete eof (grammarMatches_append hg1 hins)
  have hp2 : parseStatics eof (t1 ++ t2) = .ok (ss1 ++ ss2) :=
    parseStatics_complete eof (grammarMatches_append hg1 hg2)
  refine ⟨hp1, ?_⟩
  unfold eazyStaticMacro
  rw [hp1, hp2]

theorem c7_witness :
    parseStatics 99
      ([⟨.kwStatic, 0⟩, ⟨.kwRef, 1⟩, ⟨.ident "A", 2⟩, ⟨.colon, 3⟩,
        ⟨.tyTok 0, 4⟩, ⟨.eqTok, 5⟩, ⟨.exprTok (.lit 1), 6⟩, ⟨.semi, 7⟩] ++
       (([90, 91] : List Span).map fun sp => (⟨.attr, sp⟩ : STok)) ++
       [⟨.kwStatic, 8⟩, ⟨.kwRef, 9⟩, ⟨.ident "B", 10⟩, ⟨.colon, 11⟩,
        ⟨.tyTok 1, 12⟩, ⟨.eqTok, 13⟩, ⟨.exprTok (.lit 2), 14⟩,
        ⟨.semi, 15⟩]) =
      .ok ([⟨.inherited, "A", ⟨0, 4⟩, ⟨.lit 1, 6⟩⟩] ++
        [⟨.inherited, "B", ⟨1, 12⟩, ⟨.lit 2, 14⟩⟩]) ∧
    eazyStaticMacro 99
      ([⟨.kwStatic, 0⟩, ⟨.kwRef, 1⟩, ⟨.ident "A", 2⟩, ⟨.colon, 3⟩,
        ⟨.tyTok 0, 4⟩, ⟨.eqTok, 5⟩, ⟨.exprTok (.lit 1), 6⟩, ⟨.semi, 7⟩] ++
       (([90, 91] : List Span).map fun sp => (⟨.attr, sp⟩ : STok)) ++
       [⟨.kwStatic, 8⟩, ⟨.kwRef, 9⟩, ⟨.ident "B", 10⟩, ⟨.colon, 11⟩,
        ⟨.tyTok 1, 12⟩, ⟨.eqTok, 13⟩, ⟨.exprTok (.lit 2), 14⟩,
        ⟨.semi, 15⟩]) =
      eazyStaticMacro 99
        ([⟨.kwStatic, 0⟩, ⟨.kwRef, 1⟩, ⟨.ident "A", 2⟩, ⟨.colon, 3⟩,
          ⟨.tyTok 0, 4⟩, ⟨.eqTok, 5⟩, ⟨.exprTok (.lit 1), 6⟩, ⟨.semi, 7⟩] ++
         [⟨.kwStatic, 8⟩, ⟨.kwRef, 9⟩, ⟨.ident "B", 10⟩, ⟨.colon, 11⟩,
          ⟨.tyTok 1, 12⟩, ⟨.eqTok, 13⟩, ⟨.exprTok (.lit 2), 14⟩,
          ⟨.semi, 15⟩]) :=
  c7_attrs_discarded 99 [90, 91]
    [⟨.kwStatic, 0⟩, ⟨.kwRef, 1⟩, ⟨.ident "A", 2⟩, ⟨.colon, 3⟩,
     ⟨.tyTok 0, 4⟩, ⟨.eqTok, 5⟩, ⟨.exprTok (.lit 1), 6⟩, ⟨.semi, 7⟩]
    [⟨.kwStatic, 8⟩, ⟨.kwRef, 9⟩, ⟨.ident "B", 10⟩, ⟨.colon, 11⟩,
     ⟨.tyTok 1, 12⟩, ⟨.eqTok, 13⟩, ⟨.exprTok (.lit 2), 14⟩, ⟨.semi, 15⟩]
    [⟨.inherited, "A", ⟨0, 4⟩, ⟨.lit 1, 6⟩⟩]
    [⟨.inherited, "B", ⟨1, 12⟩, ⟨.lit 2, 14⟩⟩]
    (by simp [parseStatics, parseOne, dropAttrs, parseVisibility,
      expectStatic, expectRef, parseIdent, expectColon, parseType, expectEq,
      parseExpr, expectSemi])
    (by simp [parseStatics, parseOne, dropAttrs, parseVisibility,
      expectStatic, expectRef, parseIdent, expectColon, parseType, expectEq,
      parseExpr, expectSemi])
    (by simp)
/-- C8: for any binding and any schedule of `N ≥ 2` distinct threads each
performing the first dereference of that binding, exactly one
evaluation of the initializer occurs, and every thread observes the
fully-initialized stored value (no thread observes the null/default
slot or a missing value). -/
theorem c8_race_safety {T : Type} (initv : T) (schedule : List Nat)
    (hlen : 2 ≤ schedule.length) (hnd : schedule.Nodup) :
    (runThreads initv schedule (initialDerefState T)
      (fun _ => none)).1.evals = 1 ∧
    ∀ t ∈ schedule,
      (runThreads initv schedule (initialDerefState T) (fun _ => none)).2 t =
        some (some initv) := by
  match schedule with
  | [] => simp at hlen
  | t0 :: rest =>
    have hstep : derefGen initv (initialDerefState T) =
        (some initv, ⟨true, some initv, 1⟩) := rfl
    have hrun : runThreads initv (t0 :: rest) (initialDerefState T)
        (fun _ => none) =
        runThreads initv rest (⟨true, some initv, 1⟩ : DerefState T)
          (fun u => if u = t0 then some (some initv) else none) := by
      simp [runThreads, hstep]
    obtain ⟨hfst, hsnd⟩ := runThreads_done initv rest
      (⟨true, some initv, 1⟩ : DerefState T)
      (fun u => if u = t0 then some (some initv) else none) rfl rfl
    constructor
    · rw [hrun, hfst]
    · intro t ht
      rw [hrun, hsnd t]
      rcases List.mem_cons.mp ht with rfl | htr
      · by_cases hrt : t ∈ rest
        · simp [hrt]
        · simp [hrt]
      · simp [htr]

theorem c8_witness :
    (runThreads 7 [0, 1, 2] (initialDerefState Nat)
      (fun _ => none)).1.evals = 1 ∧
    (runThreads 7 [0, 1, 2] (initialDerefState Nat) (fun _ => none)).2 0 =
      some (some 7) :=
  ⟨(c8_race_safety 7 [0, 1, 2] (by decide) (by decide)).1,
   (c8_race_safety 7 [0, 1, 2] (by decide) (by decide)).2 0 (by decide)⟩

/-- C9: the degenerate-initializer suppression triggers only when a
binding's initializer is literally a top-level empty tuple expression;
for every block whose initializers are not top-level empty tuples —
including an empty tuple wrapped in parentheses or used as the tail of
a block expression — the macro generates the full normal output. -/
theorem c9_only_top_level_tuple :
    (∀ e, isDegenerate e = true ↔ e = Expr.tuple []) ∧
    ∀ statics : List EazyStatic,
      (∀ s ∈ statics, s.init.e ≠ Expr.tuple []) →
      eazy_static statics =
        statics.flatMap bindingItems ++
          [.initAll (statics.map EazyStatic.name)] := by
  have hiff : ∀ e, isDegenerate e = true ↔ e = Expr.tuple [] := by
    intro e
    match e with
    | .tuple elems => simp [isDegenerate, List.isEmpty_iff]
    | .paren i => simp [isDegenerate]
    | .block t => simp [isDegenerate]
    | .lit n => simp [isDegenerate]
    | .path s => simp [isDegenerate]
  refine ⟨hiff, ?_⟩
  intro statics h
  have h' : ∀ s ∈ statics, isDegenerate s.init.e = false := by
    intro s hs
    rcases Bool.eq_false_or_eq_true (isDegenerate s.init.e) with ht | hf
    · exact absurd ((hiff _).mp ht) (h s hs)
    · exact hf
  simpa [eazy_static] using genLoop_no_degenerate statics [] [] h'

theorem c9_witness :
    eazy_static
      [⟨.pub, "N", ⟨3, 10⟩, ⟨.paren (.tuple []), 11⟩⟩,
       ⟨.inherited, "M", ⟨4, 12⟩, ⟨.block (.tuple []), 13⟩⟩] =
      ([⟨.pub, "N", ⟨3, 10⟩, ⟨.paren (.tuple []), 11⟩⟩,
        ⟨.inherited, "M", ⟨4, 12⟩, ⟨.block (.tuple []), 13⟩⟩] :
          List EazyStatic).flatMap bindingItems ++
        [.initAll (([⟨.pub, "N", ⟨3, 10⟩, ⟨.paren (.tuple []), 11⟩⟩,
          ⟨.inherited, "M", ⟨4, 12⟩, ⟨.block (.tuple []), 13⟩⟩] :
            List EazyStatic).map EazyStatic.name)] :=
  c9_only_top_level_tuple.2
    [⟨.pub, "N", ⟨3, 10⟩, ⟨.paren (.tuple []), 11⟩⟩,
     ⟨.inherited, "M", ⟨4, 12⟩, ⟨.block (.tuple []), 13⟩⟩]
    (by intro s hs; simp at hs; rcases hs with rfl | rfl <;> simp)

/-- C10: the macro expansion is deterministic — two invocations with the
same input token sequence (and the same end-of-input position) produce
identical results; the embedding is a pure function of its input. -/
theorem c10_deterministic (eof1 eof2 : Span) (toks1 toks2 : List STok)
    (he : eof1 = eof2) (ht : toks1 = toks2) :
    eazyStaticMacro eof1 toks1 = eazyStaticMacro eof2 toks2 := by
  rw [he, ht]

theorem c10_witness :
    eazyStaticMacro 99 [⟨.semi, 0⟩] = eazyStaticMacro 99 [⟨.semi, 0⟩] :=
  c10_deterministic 99 99 [⟨.semi, 0⟩] [⟨.semi, 0⟩] rfl rfl
